import Mathlib

/-!
Verification of the pisa oscillation-service core.

Shallow embedding of `src/pisa/oscillations/OscillationServiceBase.py`.
Numeric values are modelled by `ℚ` (the code uses machine floats; every
claim checked here concerns structural/grid arithmetic that is exact).
Grid helper functions (`get_bin_centers`, `is_linear`, `is_logarithmic`,
`is_coarser_binning`, `subbinning`, `integer_rebin_map`, `get_smoothed_map`)
live in `pisa.utils.utils`, which is not part of the sources at hand; they
are modelled from the spec, as their doc comments state.
-/

namespace Pisa

/-- Modelled from the spec: bin centers are means of adjacent edges
("geometric or arithmetic mean depending on linear/log nature of the axis").
The geometric-mean branch for logarithmic axes is irrational over `ℚ`;
every claim below uses bin centers either on non-logarithmic axes or only
through the length of the result, which is the same for both branches. -/
def get_bin_centers : List ℚ → List ℚ
  | a :: b :: rest => (a + b) / 2 :: get_bin_centers (b :: rest)
  | _ => []

/-- Consecutive differences of a list, `edges[1:] - edges[:-1]`. -/
def diffs : List ℚ → List ℚ
  | a :: b :: rest => (b - a) :: diffs (b :: rest)
  | _ => []

/-- Consecutive ratios of a list, `edges[1:] / edges[:-1]`. -/
def ratios : List ℚ → List ℚ
  | a :: b :: rest => (b / a) :: ratios (b :: rest)
  | _ => []

/-- All entries of the list are equal (to the first one). -/
def allEqual : List ℚ → Bool
  | [] => true
  | a :: rest => rest.all (fun x => x == a)

/-- Modelled from the spec: an axis is linear when all consecutive
differences agree (the float code compares within a tolerance; over `ℚ`
the comparison is exact). -/
def is_linear (edges : List ℚ) : Bool :=
  allEqual (diffs edges)

/-- Modelled from the spec: an axis is logarithmic when all consecutive
ratios agree (exact comparison over `ℚ`). -/
def is_logarithmic (edges : List ℚ) : Bool :=
  allEqual (ratios edges)

/-- `np.linspace a b n`: `n` evenly spaced points from `a` to `b` inclusive.
For `n = 1` the `ℚ` convention `x / 0 = 0` gives `[a]`, matching numpy. -/
def linspace (a b : ℚ) (n : ℕ) : List ℚ :=
  (List.range n).map (fun (i : ℕ) => a + (i : ℚ) * (b - a) / ((n : ℚ) - 1))

/-- Modelled from the source: `np.logspace(log10 a, log10 b, n)` is the
pointwise image of `np.linspace(log10 a, log10 b, n)` under `10 ^ ·`.
Exact logarithms of rationals are irrational, so the model keeps the
length-faithful linspace skeleton of this branch; no claim below depends
on the values it produces, only on the number of points (`n`, as in the
source). -/
def logspace_model (a b : ℚ) (n : ℕ) : List ℚ :=
  linspace a b n

/-- Modelled from the spec: `is_coarser_binning(coarse, fine)` is true iff
`len(fine)-1` is an integer multiple `k ≥ 1` of `len(coarse)-1` and every
coarse edge appears exactly in the fine edge sequence at the expected
stride. -/
def is_coarser_binning (coarse fine : List ℚ) : Bool :=
  let nc := coarse.length - 1
  let nf := fine.length - 1
  decide (1 ≤ nc) && decide (nc ≤ nf) && decide (nf % nc = 0) &&
    (List.range coarse.length).all
      (fun i => fine.getD (i * (nf / nc)) 0 == coarse.getD i 0)

/-- Insertion of one element into a sorted list (helper for `sortQ`). -/
def insertSorted (x : ℚ) : List ℚ → List ℚ
  | [] => [x]
  | y :: ys => if x ≤ y then x :: y :: ys else y :: insertSorted x ys

/-- Model of in-place `ndarray.sort()`: insertion sort. -/
def sortQ : List ℚ → List ℚ
  | [] => []
  | x :: xs => insertSorted x (sortQ xs)

/-- One step of the irregular-binning oversampling loop:
`fine_bins = np.append(fine_bins, get_bin_centers(fine_bins)); fine_bins.sort()`. -/
def insertCenters (l : List ℚ) : List ℚ :=
  sortQ (l ++ get_bin_centers l)

/-- `check_oversampling(fine_bins, coarse_bins, oversample)` from
`OscillationServiceBase.py`: keep explicit fine bins when they refine the
coarse bins (else fall back to the coarse bins); otherwise synthesize a
fine grid from the coarse one: `np.linspace`/`np.logspace` over
`oversample*len(coarse_bins)-1` points for linear/logarithmic axes, and
repeated bin-center insertion (`oversample - 1` rounds) for irregular
axes. -/
def check_oversampling (fine_bins : Option (List ℚ)) (coarse_bins : List ℚ)
    (oversample : ℕ) : List ℚ :=
  match fine_bins with
  | some fb => if is_coarser_binning coarse_bins fb then fb else coarse_bins
  | none =>
    if is_linear coarse_bins then
      linspace (coarse_bins.headD 0) (coarse_bins.getLastD 0)
        (oversample * coarse_bins.length - 1)
    else if is_logarithmic coarse_bins then
      logspace_model (coarse_bins.headD 0) (coarse_bins.getLastD 0)
        (oversample * coarse_bins.length - 1)
    else
      insertCenters^[oversample - 1] coarse_bins

/-- A 2-D probability array (row = energy index, column = cos-zenith index). -/
abbrev Mat := List (List ℚ)

/-- `np.zeros((r, c))`. -/
def zeros (r c : ℕ) : Mat :=
  List.replicate r (List.replicate c 0)

/-- A value stored in an oscillation probability dictionary: either an
axis-edge array (under an `...bins` key) or a flavor→map sub-dictionary. -/
inductive Val where
  | bins (edges : List ℚ)
  | fmap (m : List (String × Mat))
deriving DecidableEq

/-- Python dictionaries are modelled as association lists in insertion
order. -/
abbrev OscDict := List (String × Val)

/-- Substring test `needle ⊆ hay` on character lists (helper for the
Python `in` operator on strings). -/
def startsWithChars : List Char → List Char → Bool
  | [], _ => true
  | _ :: _, [] => false
  | n :: ns, h :: hs => n == h && startsWithChars ns hs

/-- Python `needle in hay` for strings, on character lists. -/
def containsSub (needle hay : List Char) : Bool :=
  startsWithChars needle hay ||
    match hay with
    | [] => false
    | _ :: hs => containsSub needle hs

/-- Python `needle in hay` on strings. -/
def strContainsSub (needle hay : String) : Bool :=
  containsSub needle.toList hay.toList

/-- Model of a numpy-style nested array argument (to capture the
dimensionality check in the constructor). -/
inductive PyTree where
  | leaf (x : ℚ)
  | node (children : List PyTree)

/-- `np.shape` of a (rectangular) nested array. -/
def npShape : PyTree → List ℕ
  | .leaf _ => []
  | .node [] => [0]
  | .node (c :: cs) => (cs.length + 1) :: npShape c

/-- The numeric contents of a one-dimensional array (non-leaf children
collapse to `0`; they never occur in the 1-d case the claims exercise). -/
def toAxis : PyTree → List ℚ
  | .leaf _ => []
  | .node cs => cs.map (fun c => match c with | .leaf x => x | .node _ => 0)

/-- The state stored by `OscillationServiceBase.__init__`: the two coarse
axis-edge arrays. -/
structure OscService where
  ebins : List ℚ
  czbins : List ℚ
deriving DecidableEq

/-- `OscillationServiceBase.__init__(ebins, czbins)`: store
`np.array(ebins)`/`np.array(czbins)` and raise `IndexError` when either
axis is not 1-dimensional (ebins is checked first). -/
def OscillationServiceBase_init (ebins czbins : PyTree) :
    Except String OscService :=
  if (npShape ebins).length ≠ 1 then .error "Axes must be 1d!"
  else if (npShape czbins).length ≠ 1 then .error "Axes must be 1d!"
  else .ok ⟨toAxis ebins, toAxis czbins⟩

/-- `isOk` for the `Except`-modelled constructor. -/
def exceptIsOk : Except String OscService → Bool
  | .ok _ => true
  | .error _ => false

/-- The oscillation-probability-filling hook: gets the allocated table and
the two fine bin-center arrays, returns the filled table (the Python code
mutates the table in place) or raises. -/
abbrev Hook := OscDict → List ℚ → List ℚ → Except String OscDict

/-- The base-class `fill_osc_prob`: always raises `NotImplementedError`
naming the concrete class (`self.__class__.__name__`). -/
def fill_osc_prob (className : String) : Hook :=
  fun _ _ _ => .error ("Method not implemented for " ++ className)

/-- The four source-flavor family keys, in the order the source lists
them. -/
def familyKeys : List String :=
  ["nue_maps", "numu_maps", "nue_bar_maps", "numu_bar_maps"]

/-- One freshly allocated family group of `get_osc_probLT_dict`: three
zero matrices keyed by destination flavor (barred names when `'bar' in
nu`). -/
def initFamily (nu : String) (r c : ℕ) : Val :=
  if strContainsSub "bar" nu then
    .fmap [("nue_bar", zeros r c), ("numu_bar", zeros r c),
           ("nutau_bar", zeros r c)]
  else
    .fmap [("nue", zeros r c), ("numu", zeros r c), ("nutau", zeros r c)]

/-- The table allocated by `get_osc_probLT_dict` before `fill_osc_prob`
is called: fine edges under `ebins`/`czbins` plus four family groups of
zero matrices of shape `(len(ecen), len(czcen))`. -/
def osc_probLT_init (s : OscService) (fine_ebins fine_czbins : Option (List ℚ))
    (oversample : ℕ) : OscDict :=
  let eb := check_oversampling fine_ebins s.ebins oversample
  let czb := check_oversampling fine_czbins s.czbins oversample
  let r := (get_bin_centers eb).length
  let c := (get_bin_centers czb).length
  ("ebins", Val.bins eb) :: ("czbins", Val.bins czb) ::
    familyKeys.map (fun nu => (nu, initFamily nu r c))

/-- `OscillationServiceBase.get_osc_probLT_dict`: allocate the fine-grid
table and delegate to `fill_osc_prob` (modelled by the `hook`
parameter). -/
def get_osc_probLT_dict (s : OscService) (hook : Hook)
    (fine_ebins fine_czbins : Option (List ℚ)) (oversample : ℕ) :
    Except String OscDict :=
  hook (osc_probLT_init s fine_ebins fine_czbins oversample)
    (get_bin_centers (check_oversampling fine_ebins s.ebins oversample))
    (get_bin_centers (check_oversampling fine_czbins s.czbins oversample))

/-- Look an axis-edge array up in a dictionary (`fine_maps['ebins']`);
a missing key or a non-array value stands for a Python runtime error and
is collapsed to `[]` (never exercised by the claims). -/
def lookupBins (d : OscDict) (k : String) : List ℚ :=
  match d.lookup k with
  | some (.bins b) => b
  | _ => []

/-- Modelled from the spec: `subbinning(coarse_grid, fine_grid)` returns
the per-axis integer rebinning factors when `is_coarser_binning` holds on
both axes, and nothing otherwise (signal to fall back to
interpolation). -/
def subbinning (coarseGrid fineGrid : List ℚ × List ℚ) : Option (ℕ × ℕ) :=
  if is_coarser_binning coarseGrid.1 fineGrid.1 &&
      is_coarser_binning coarseGrid.2 fineGrid.2 then
    some ((fineGrid.1.length - 1) / (coarseGrid.1.length - 1),
          (fineGrid.2.length - 1) / (coarseGrid.2.length - 1))
  else
    none

/-- Modelled from the spec: exact integer rebinning aggregates each
`kE × kCZ` block of adjacent fine cells into one coarse cell (normalized
so that a uniform fine table rebins to the same values, per the spec's
round-trip property). -/
def integer_rebin_map (osc_map : Mat) (rebin_info : ℕ × ℕ) : Mat :=
  let kE := rebin_info.1
  let kCZ := rebin_info.2
  let nE := osc_map.length / kE
  let nCZ := (osc_map.headD []).length / kCZ
  (List.range nE).map (fun i =>
    (List.range nCZ).map (fun j =>
      (((List.range kE).map (fun a =>
        ((List.range kCZ).map (fun b =>
          ((osc_map.getD (kE * i + a) []).getD (kCZ * j + b) 0))).sum)).sum)
        / (kE * kCZ)))

/-- Which fine bin contains the point `x` (index of the last edge
`≤ x`). -/
def findBin (edges : List ℚ) (x : ℚ) : ℕ :=
  (edges.takeWhile (fun e => decide (e ≤ x))).length - 1

/-- Modelled from the spec: interpolation-based smoothing resamples the
fine map's bin-center values onto the coarse grid's bin centers (claims
below depend only on this being a pure function of its arguments). -/
def get_smoothed_map (osc_map : Mat) (fine_ebins fine_czbins
    coarse_ebins coarse_czbins : List ℚ) : Mat :=
  (get_bin_centers coarse_ebins).map (fun ec =>
    (get_bin_centers coarse_czbins).map (fun cc =>
      (osc_map.getD (findBin fine_ebins ec) []).getD (findBin fine_czbins cc) 0))

/-- The per-family smoothing loop of `get_osc_prob_maps`: keys containing
`'bins'` are skipped, every sub-map of a family dictionary is smoothed; a
non-dictionary value under a family key stands for the `AttributeError`
Python would raise on `.items()`. -/
def smoothFamilies (f : Mat → Mat) : OscDict → Except String OscDict
  | [] => .ok []
  | (k, v) :: rest =>
    if strContainsSub "bins" k then
      smoothFamilies f rest
    else
      match v with
      | .fmap inner => do
          let tail ← smoothFamilies f rest
          pure ((k, Val.fmap (inner.map (fun p => (p.1, f p.2)))) :: tail)
      | .bins _ => .error "AttributeError"

/-- `OscillationServiceBase.get_osc_prob_maps`: build the fine table,
choose the resampling strategy once from `subbinning`, smooth all twelve
sub-maps, and return them together with the coarse edges. -/
def get_osc_prob_maps (s : OscService) (hook : Hook)
    (fine_ebins fine_czbins : Option (List ℚ)) (oversample : ℕ) :
    Except String OscDict := do
  let fine_maps ← get_osc_probLT_dict s hook fine_ebins fine_czbins oversample
  let fineE := lookupBins fine_maps "ebins"
  let fineCZ := lookupBins fine_maps "czbins"
  let rebin_info := subbinning (s.ebins, s.czbins) (fineE, fineCZ)
  let smoothing_func : Mat → Mat := fun osc_map =>
    match rebin_info with
    | some info => integer_rebin_map osc_map info
    | none => get_smoothed_map osc_map fineE fineCZ s.ebins s.czbins
  let families ← smoothFamilies smoothing_func fine_maps
  pure (("ebins", Val.bins s.ebins) :: ("czbins", Val.bins s.czbins) :: families)

/-- The key/flavor skeleton of a stored value: the axis array itself for
`bins` values, the inner key list for family dictionaries. -/
inductive ValSk where
  | bins (edges : List ℚ)
  | fmap (keys : List String)
deriving DecidableEq

/-- Skeleton of a stored value. -/
def valSkeleton : Val → ValSk
  | .bins b => .bins b
  | .fmap m => .fmap (m.map Prod.fst)

/-- Skeleton of a dictionary: its keys together with each value's
skeleton. -/
def dictSkeleton (d : OscDict) : List (String × ValSk) :=
  d.map (fun p => (p.1, valSkeleton p.2))

/-- Number of 2-D arrays held by a dictionary (matrix-valued inner
entries across all family groups). -/
def countMatrices (d : OscDict) : ℕ :=
  (d.map (fun p => match p.2 with | .bins _ => 0 | .fmap inner => inner.length)).sum

/-! ### Helper lemmas -/

theorem get_bin_centers_length : ∀ l : List ℚ,
    (get_bin_centers l).length = l.length - 1
  | [] => rfl
  | [_] => rfl
  | a :: b :: rest => by
    have := get_bin_centers_length (b :: rest)
    simp [get_bin_centers] at this ⊢
    omega

theorem startsWithChars_self : ∀ n : List Char, startsWithChars n n = true
  | [] => rfl
  | c :: cs => by simp [startsWithChars, startsWithChars_self cs]

theorem containsSub_append_self : ∀ (pre n : List Char),
    containsSub n (pre ++ n) = true
  | [], n => by
    rw [containsSub.eq_def]
    simp [startsWithChars_self n]
  | c :: cs, n => by
    rw [containsSub.eq_def]
    simp [containsSub_append_self cs n]

@[simp] theorem cs_bins_ebins :
    strContainsSub "bins" "ebins" = true := by decide

@[simp] theorem cs_bins_czbins :
    strContainsSub "bins" "czbins" = true := by decide

@[simp] theorem cs_bins_nue_maps :
    strContainsSub "bins" "nue_maps" = false := by decide

@[simp] theorem cs_bins_numu_maps :
    strContainsSub "bins" "numu_maps" = false := by decide

@[simp] theorem cs_bins_nue_bar_maps :
    strContainsSub "bins" "nue_bar_maps" = false := by decide

@[simp] theorem cs_bins_numu_bar_maps :
    strContainsSub "bins" "numu_bar_maps" = false := by decide

@[simp] theorem cs_bar_nue_maps :
    strContainsSub "bar" "nue_maps" = false := by decide

@[simp] theorem cs_bar_numu_maps :
    strContainsSub "bar" "numu_maps" = false := by decide

@[simp] theorem cs_bar_nue_bar_maps :
    strContainsSub "bar" "nue_bar_maps" = true := by decide

@[simp] theorem cs_bar_numu_bar_maps :
    strContainsSub "bar" "numu_bar_maps" = true := by decide

@[simp] theorem linspace_length (a b : ℚ) (n : ℕ) :
    (linspace a b n).length = n := by
  rw [linspace, List.length_map, List.length_range]

theorem insertSorted_length (x : ℚ) : ∀ l : List ℚ,
    (insertSorted x l).length = l.length + 1
  | [] => rfl
  | y :: ys => by
    by_cases h : x ≤ y <;> simp [insertSorted, h, insertSorted_length x ys]

theorem sortQ_length : ∀ l : List ℚ, (sortQ l).length = l.length
  | [] => rfl
  | x :: xs => by simp [sortQ, insertSorted_length, sortQ_length xs]

theorem insertCenters_length (l : List ℚ) (h : 1 ≤ l.length) :
    (insertCenters l).length = 2 * l.length - 1 := by
  simp [insertCenters, sortQ_length, get_bin_centers_length]
  omega

theorem headD_eq_getD (l : List ℚ) : l.headD 0 = l.getD 0 0 := by
  cases l <;> rfl

theorem getLastD_eq_getD : ∀ l : List ℚ, l.getLastD 0 = l.getD (l.length - 1) 0
  | [] => rfl
  | [_] => rfl
  | a :: b :: rest => by
    have ih := getLastD_eq_getD (b :: rest)
    simp only [List.getLastD_cons] at ih ⊢
    simpa using ih

theorem diffs_length : ∀ l : List ℚ, (diffs l).length = l.length - 1
  | [] => rfl
  | [_] => rfl
  | a :: b :: rest => by
    have := diffs_length (b :: rest)
    simp [diffs] at this ⊢
    omega

theorem diffs_getD : ∀ (l : List ℚ) (i : ℕ), i + 1 < l.length →
    (diffs l).getD i 0 = l.getD (i + 1) 0 - l.getD i 0
  | a :: b :: rest, 0, _ => rfl
  | a :: b :: rest, i + 1, h => by
    have ih := diffs_getD (b :: rest) i (by simpa using h)
    simpa [diffs] using ih

theorem allEqual_getD (l : List ℚ) (h : allEqual l = true) :
    ∀ i, i < l.length → l.getD i 0 = l.getD 0 0 := by
  cases l with
  | nil => intro i hi; simp at hi
  | cons a rest =>
    intro i hi
    cases i with
    | zero => rfl
    | succ j =>
      simp only [List.getD_cons_succ, List.getD_cons_zero]
      have hj : j < rest.length := by simpa using hi
      have hmem : rest.getD j 0 ∈ rest := by
        rw [List.getD_eq_getElem rest 0 hj]
        exact List.getElem_mem hj
      have hall : ∀ x ∈ rest, x = a := by simpa [allEqual] using h
      exact hall _ hmem

theorem is_linear_getD (l : List ℚ) (h : is_linear l = true) :
    ∀ i, i < l.length →
      l.getD i 0 = l.getD 0 0 + (i : ℚ) * (l.getD 1 0 - l.getD 0 0) := by
  intro i
  induction i with
  | zero => intro _; simp
  | succ j ih =>
    intro hj
    have hstep : (diffs l).getD j 0 = l.getD 1 0 - l.getD 0 0 := by
      have hjd : j < (diffs l).length := by rw [diffs_length]; omega
      have h0 := allEqual_getD (diffs l) h j hjd
      have hlen2 : 1 < l.length := by omega
      rw [h0, diffs_getD l 0 (by omega)]
    rw [diffs_getD l j hj] at hstep
    have hgoal : l.getD (j + 1) 0 = l.getD j 0 + (l.getD 1 0 - l.getD 0 0) := by
      linarith
    rw [hgoal, ih (by omega)]
    push_cast
    ring

theorem linspace_getD (a b : ℚ) (n j : ℕ) (h : j < n) :
    (linspace a b n).getD j 0 = a + (j : ℚ) * (b - a) / ((n : ℚ) - 1) := by
  rw [linspace, List.getD_eq_getElem _ 0 (by simpa using h)]
  simp

theorem map_eq_cons_inv {α β : Type} {f : α → β} {l : List α} {b : β}
    {bs : List β} (h : l.map f = b :: bs) :
    ∃ a as, l = a :: as ∧ f a = b ∧ as.map f = bs := by
  cases l with
  | nil => simp at h
  | cons x xs =>
    simp only [List.map_cons, List.cons.injEq] at h
    exact ⟨x, xs, rfl, h.1, h.2⟩

theorem valSkeleton_fmap_inv {v : Val} {ks : List String}
    (h : valSkeleton v = .fmap ks) :
    ∃ m, v = .fmap m ∧ m.map Prod.fst = ks := by
  cases v with
  | bins b => simp [valSkeleton] at h
  | fmap m =>
    simp only [valSkeleton, ValSk.fmap.injEq] at h
    exact ⟨m, rfl, h⟩

theorem valSkeleton_bins_inv {v : Val} {b : List ℚ}
    (h : valSkeleton v = .bins b) : v = .bins b := by
  cases v with
  | bins e => simpa [valSkeleton] using h
  | fmap m => simp [valSkeleton] at h

theorem insertCenters_iterate_length : ∀ (t : ℕ) (l : List ℚ),
    1 ≤ l.length →
    (insertCenters^[t] l).length = 2 ^ t * (l.length - 1) + 1
  | 0, l, h => by simpa using (by omega : l.length = l.length - 1 + 1)
  | t + 1, l, h => by
    rw [Function.iterate_succ_apply,
      insertCenters_iterate_length t (insertCenters l)
        (by rw [insertCenters_length l h]; omega),
      insertCenters_length l h]
    have h2 : 2 * l.length - 1 - 1 = 2 * (l.length - 1) := by omega
    rw [h2, pow_succ]
    ring

end Pisa

section Claims

open Pisa

/-- C2: when explicit fine bin edges are supplied to
`check_oversampling`, they are used unchanged if `is_coarser_binning
(coarse, fine)` holds, and otherwise the coarse output edges are
substituted as the fine grid; the call is never aborted (the function
totally returns one of the two grids) and the `oversample` argument is
not consulted. (The warning the code logs in the fallback case is a
logging side effect outside this embedding.) -/
theorem claim_C2 (fb cb : List ℚ) (k1 k2 : ℕ) :
    check_oversampling (some fb) cb k1
      = (if is_coarser_binning cb fb then fb else cb)
    ∧ check_oversampling (some fb) cb k1 = check_oversampling (some fb) cb k2 :=
  ⟨rfl, rfl⟩

/-- C4 counterexample: the claim says construction fails unless both
axes are monotonic increasing sequences of length ≥ 2; but the
constructor only checks dimensionality, so the non-monotonic 1-d axis
`[3, 1, 2]` is accepted and stored unchanged. -/
theorem claim_C4_counterexample :
    OscillationServiceBase_init
        (.node [.leaf 3, .leaf 1, .leaf 2]) (.node [.leaf 0, .leaf 1])
      = .ok ⟨[3, 1, 2], [0, 1]⟩
    ∧ ¬ ((3 : ℚ) < 1) := by
  constructor
  · rfl
  · norm_num

/-- C4 amended: construction of the oscillation service succeeds
iff both axis arguments are one-dimensional arrays (monotonicity and
length are not checked), and in that case the two axes are stored. -/
theorem claim_C4 (e cz : PyTree) :
    (exceptIsOk (OscillationServiceBase_init e cz) = true
      ↔ ((npShape e).length = 1 ∧ (npShape cz).length = 1))
    ∧ ((npShape e).length = 1 → (npShape cz).length = 1 →
        OscillationServiceBase_init e cz = .ok ⟨toAxis e, toAxis cz⟩) := by
  by_cases h1 : (npShape e).length = 1 <;>
    by_cases h2 : (npShape cz).length = 1 <;>
      simp [OscillationServiceBase_init, exceptIsOk, h1, h2]

/-- C4 witness: a pair of 1-d axes is accepted and stored. -/
theorem claim_C4_witness :
    OscillationServiceBase_init
        (.node [.leaf 1, .leaf 2]) (.node [.leaf 0, .leaf 1])
      = .ok ⟨[1, 2], [0, 1]⟩ :=
  (claim_C4 (.node [.leaf 1, .leaf 2]) (.node [.leaf 0, .leaf 1])).2 rfl rfl

/-- C5 counterexample: the claim (following the spec) says the table
builder allocates *eight* zero arrays; the code allocates three
destination-flavor matrices for each of the four source families, i.e.
twelve. -/
theorem claim_C5_counterexample :
    countMatrices (osc_probLT_init ⟨[1, 2], [0, 1]⟩ none none 2) = 12
    ∧ countMatrices (osc_probLT_init ⟨[1, 2], [0, 1]⟩ none none 2) ≠ 8 := by
  norm_num [countMatrices, osc_probLT_init, familyKeys, initFamily]

/-- C5 amended: the fine-grid table builder allocates twelve
zero-initialized 2-D arrays of shape `(N_Efine, N_CZfine)` — three
destination flavors for each of the four source families `nue, numu,
nue_bar, numu_bar` — before delegating to the physics hook. -/
theorem claim_C5 (s : OscService) (fe fcz : Option (List ℚ)) (os : ℕ)
    (hook : Hook) :
    (osc_probLT_init s fe fcz os).map Prod.fst
        = ["ebins", "czbins"] ++ familyKeys
    ∧ countMatrices (osc_probLT_init s fe fcz os) = 12
    ∧ (∀ p1 ∈ osc_probLT_init s fe fcz os, ∀ m, p1.2 = Val.fmap m →
        m.length = 3 ∧ ∀ p2 ∈ m, p2.2 = zeros
          (get_bin_centers (check_oversampling fe s.ebins os)).length
          (get_bin_centers (check_oversampling fcz s.czbins os)).length)
    ∧ (∀ eb : List ℚ, (get_bin_centers eb).length = eb.length - 1)
    ∧ (∀ r c : ℕ, (zeros r c).length = r
        ∧ ∀ row ∈ zeros r c, row.length = c ∧ ∀ x ∈ row, x = 0)
    ∧ get_osc_probLT_dict s hook fe fcz os
        = hook (osc_probLT_init s fe fcz os)
            (get_bin_centers (check_oversampling fe s.ebins os))
            (get_bin_centers (check_oversampling fcz s.czbins os)) := by
  refine ⟨?_, ?_, ?_, get_bin_centers_length, ?_, rfl⟩
  · simp [osc_probLT_init, familyKeys, List.map_map]
  · norm_num [countMatrices, osc_probLT_init, familyKeys, initFamily]
  · intro p1 hp1 m hm
    simp [osc_probLT_init, familyKeys, initFamily] at hp1
    rcases hp1 with h | h | h | h | h | h <;> rw [h] at hm <;> simp at hm <;>
      subst hm <;> refine ⟨rfl, ?_⟩ <;> intro p2 hp2 <;> simp at hp2 <;>
        rcases hp2 with h2 | h2 | h2 <;> simp [h2]
  · intro r c
    refine ⟨by simp [zeros], ?_⟩
    intro row hrow
    simp [zeros] at hrow
    rcases hrow with ⟨-, hrow⟩
    subst hrow
    exact ⟨by simp, by intro x hx; exact (List.eq_of_mem_replicate hx)⟩

/-- C5 amended witness: the concrete service of the spec's example
allocates twelve matrices. -/
theorem claim_C5_witness :
    countMatrices (osc_probLT_init ⟨[1, 2, 3, 4], [-1, 0, 1]⟩ none none 2) = 12 :=
  (claim_C5 ⟨[1, 2, 3, 4], [-1, 0, 1]⟩ none none 2
    (fun d _ _ => .ok d)).2.1

/-- C6: the base-class `fill_osc_prob` raises a not-implemented error
whose message names the concrete class, and `get_osc_prob_maps` on a
service whose hook is the base one aborts immediately with that same
error — no partial table is returned. -/
theorem claim_C6 (className : String) (d : OscDict) (ec cc : List ℚ)
    (s : OscService) (fe fcz : Option (List ℚ)) (os : ℕ) :
    fill_osc_prob className d ec cc
        = .error ("Method not implemented for " ++ className)
    ∧ get_osc_prob_maps s (fill_osc_prob className) fe fcz os
        = .error ("Method not implemented for " ++ className)
    ∧ containsSub className.toList
        ("Method not implemented for " ++ className).toList = true := by
  refine ⟨rfl, rfl, ?_⟩
  have h : ("Method not implemented for " ++ className).toList
      = "Method not implemented for ".toList ++ className.toList := by
    simp [String.toList]
  rw [h]
  exact containsSub_append_self _ _

/-- C3 counterexample: for the linear coarse axis `[0, 1, 2]`
(`N = 2` bins) and `oversample = 3`, the synthesized fine grid
`np.linspace(0, 2, 3*3-1)` has 7 bins — not an integer multiple of 2 —
and the interior coarse edge `1` does not appear among the fine edges at
all, so the claimed exact integer-factor refinement fails for general
`oversample`. -/
theorem claim_C3_counterexample :
    is_linear [0, 1, 2] = true
    ∧ (check_oversampling none [0, 1, 2] 3).length - 1 = 7
    ∧ ¬ (2 ∣ 7)
    ∧ (1 : ℚ) ∉ check_oversampling none [0, 1, 2] 3
    ∧ is_coarser_binning [0, 1, 2] (check_oversampling none [0, 1, 2] 3)
        = false := by
  have hev : check_oversampling none [0, 1, 2] 3
      = [0, 2/7, 4/7, 6/7, 8/7, 10/7, 12/7, 2] := by
    norm_num [check_oversampling, is_linear, diffs, allEqual, linspace,
      List.range_succ]
  refine ⟨by norm_num [is_linear, diffs, allEqual], ?_, by norm_num, ?_, ?_⟩
  · rw [hev]; rfl
  · rw [hev]; norm_num
  · rw [hev]; norm_num [is_coarser_binning, List.range_succ]

/-- C3 amended: for `oversample = 2` and a linear coarse axis with
`N ≥ 1` bins, the synthesized fine grid *is* an exact integer-factor
refinement of the coarse grid: it has exactly `2N` bins and
`is_coarser_binning coarse fine` holds (every coarse edge appears at
stride 2). For a general oversampling factor `k` the grid has
`k*(N+1) - 2` bins, which is not a multiple of `N` in general — see the
counterexample. -/
theorem claim_C3 (cb : List ℚ) (hlin : is_linear cb = true)
    (hlen : 2 ≤ cb.length) :
    (check_oversampling none cb 2).length - 1 = 2 * (cb.length - 1)
    ∧ is_coarser_binning cb (check_oversampling none cb 2) = true := by
  have hfine : check_oversampling none cb 2
      = linspace (cb.getD 0 0) (cb.getD (cb.length - 1) 0)
          (2 * cb.length - 1) := by
    rw [check_oversampling, if_pos hlin, headD_eq_getD, getLastD_eq_getD]
  have hflen : (check_oversampling none cb 2).length = 2 * cb.length - 1 := by
    rw [hfine, linspace_length]
  refine ⟨by omega, ?_⟩
  rw [is_coarser_binning]
  have hnf : (check_oversampling none cb 2).length - 1
      = 2 * (cb.length - 1) := by omega
  rw [hnf]
  have hstride : 2 * (cb.length - 1) / (cb.length - 1) = 2 :=
    Nat.mul_div_cancel 2 (by omega)
  rw [hstride]
  have hL2 : (2 : ℚ) ≤ (cb.length : ℚ) := by exact_mod_cast hlen
  simp only [Bool.and_eq_true, decide_eq_true_eq, List.all_eq_true]
  refine ⟨⟨⟨by omega, by omega⟩,
    by simpa using Nat.mul_mod_left 2 (cb.length - 1)⟩, ?_⟩
  intro i hi
  rw [List.mem_range] at hi
  have hidx : i * 2 < 2 * cb.length - 1 := by omega
  rw [hfine, linspace_getD _ _ _ _ hidx, beq_iff_eq]
  have hc := is_linear_getD cb hlin
  rw [hc i hi, hc (cb.length - 1) (by omega)]
  have hcast : ((cb.length - 1 : ℕ) : ℚ) = (cb.length : ℚ) - 1 := by
    push_cast [Nat.cast_sub (by omega : 1 ≤ cb.length)]
    ring
  have hcast2 : ((2 * cb.length - 1 : ℕ) : ℚ) = 2 * (cb.length : ℚ) - 1 := by
    push_cast [Nat.cast_sub (by omega : 1 ≤ 2 * cb.length)]
    ring
  rw [hcast, hcast2]
  have hne : (cb.length : ℚ) - 1 ≠ 0 := by linarith
  have h2 : (2 * (cb.length : ℚ) - 1 - 1) = 2 * ((cb.length : ℚ) - 1) := by
    ring
  rw [h2]
  field_simp
  ring

/-- C3 amended witness: for the linear axis `[0, 1, 2]` and
`oversample = 2`, the synthesized grid refines the coarse grid exactly. -/
theorem claim_C3_witness :
    is_coarser_binning [0, 1, 2] (check_oversampling none [0, 1, 2] 2)
      = true :=
  (claim_C3 [0, 1, 2] (by norm_num [is_linear, diffs, allEqual])
    (by norm_num)).2

/-- C9: for a linear or logarithmic coarse axis and `oversample = 1`
with no explicit fine edges, `check_oversampling` returns a grid with
`len(coarse_bins) - 1` edges — one bin fewer than the coarse output grid,
i.e. the synthesized "fine" grid is strictly coarser than the output
grid. -/
theorem claim_C9 (cb : List ℚ) (hlen : 2 ≤ cb.length)
    (hax : is_linear cb = true ∨ is_logarithmic cb = true) :
    (check_oversampling none cb 1).length = cb.length - 1
    ∧ (check_oversampling none cb 1).length - 1 < cb.length - 1 := by
  have hmain : (check_oversampling none cb 1).length = cb.length - 1 := by
    by_cases hlin : is_linear cb = true
    · simp [check_oversampling, hlin]
    · rcases hax with h | h
      · exact absurd h hlin
      · simp [check_oversampling, hlin, h, logspace_model]
  exact ⟨hmain, by omega⟩

/-- C9 witness: for the linear axis `[0, 1, 2]` and `oversample = 1`
the synthesized grid has 2 edges (1 bin), strictly coarser than the
2-bin output grid. -/
theorem claim_C9_witness :
    (check_oversampling none [0, 1, 2] 1).length = 2 :=
  (claim_C9 [0, 1, 2] (by norm_num)
    (Or.inl (by norm_num [is_linear, diffs, allEqual]))).1

/-- C10: for an irregular (neither linear nor logarithmic) coarse
axis with no explicit fine edges, the point-insertion loop runs
`oversample - 1` times, each round turning `m` bins into `2m` bins, so
the resulting grid has `2 ^ (oversample - 1) * N` bins rather than
`oversample * N`. -/
theorem claim_C10 (cb : List ℚ) (k : ℕ)
    (hlin : is_linear cb = false) (hlog : is_logarithmic cb = false)
    (hk : 1 ≤ k) (hlen : 1 ≤ cb.length) :
    (check_oversampling none cb k).length - 1
      = 2 ^ (k - 1) * (cb.length - 1)
    ∧ (∀ l : List ℚ, 1 ≤ l.length →
        (insertCenters l).length - 1 = 2 * (l.length - 1)) := by
  constructor
  · have : check_oversampling none cb k = insertCenters^[k - 1] cb := by
      simp [check_oversampling, hlin, hlog]
    rw [this, insertCenters_iterate_length (k - 1) cb hlen]
    omega
  · intro l hl
    rw [insertCenters_length l hl]
    omega

/-- C10 witness: the irregular axis `[0, 1, 3]` (2 bins) with
`oversample = 3` yields `2 ^ 2 * 2 = 8` fine bins. -/
theorem claim_C10_witness :
    (check_oversampling none [0, 1, 3] 3).length - 1 = 2 ^ (3 - 1) * 2 :=
  (claim_C10 [0, 1, 3] 3
    (by norm_num [is_linear, diffs, allEqual])
    (by norm_num [is_logarithmic, ratios, allEqual])
    (by norm_num) (by norm_num)).1

/-- C1: for any service whose `fill_osc_prob` hook fills probability
values without adding or removing keys (it returns a table with the same
key/flavor skeleton as its input), `get_osc_prob_maps` returns a
dictionary whose skeleton is exactly the four family keys — each with
exactly three destination-flavor sub-maps — plus `ebins`/`czbins` bound
to the coarse edge arrays stored at construction. -/
theorem claim_C1 (s : OscService) (hook : Hook) (fe fcz : Option (List ℚ))
    (os : ℕ)
    (hhook : ∀ d ec cc, ∃ d2, hook d ec cc = .ok d2
      ∧ dictSkeleton d2 = dictSkeleton d) :
    (get_osc_prob_maps s hook fe fcz os).map dictSkeleton
      = .ok [("ebins", .bins s.ebins), ("czbins", .bins s.czbins),
             ("nue_maps", .fmap ["nue", "numu", "nutau"]),
             ("numu_maps", .fmap ["nue", "numu", "nutau"]),
             ("nue_bar_maps", .fmap ["nue_bar", "numu_bar", "nutau_bar"]),
             ("numu_bar_maps", .fmap ["nue_bar", "numu_bar", "nutau_bar"])] := by
  obtain ⟨d2, hok, hsk⟩ := hhook (osc_probLT_init s fe fcz os)
    (get_bin_centers (check_oversampling fe s.ebins os))
    (get_bin_centers (check_oversampling fcz s.czbins os))
  have hinit : dictSkeleton (osc_probLT_init s fe fcz os)
      = [("ebins", ValSk.bins (check_oversampling fe s.ebins os)),
         ("czbins", ValSk.bins (check_oversampling fcz s.czbins os)),
         ("nue_maps", .fmap ["nue", "numu", "nutau"]),
         ("numu_maps", .fmap ["nue", "numu", "nutau"]),
         ("nue_bar_maps", .fmap ["nue_bar", "numu_bar", "nutau_bar"]),
         ("numu_bar_maps", .fmap ["nue_bar", "numu_bar", "nutau_bar"])] := by
    simp [dictSkeleton, osc_probLT_init, familyKeys, initFamily, valSkeleton]
  rw [hinit, dictSkeleton] at hsk
  obtain ⟨p1, d2, rfl, hp1, hsk⟩ := map_eq_cons_inv hsk
  obtain ⟨p2, d2, rfl, hp2, hsk⟩ := map_eq_cons_inv hsk
  obtain ⟨p3, d2, rfl, hp3, hsk⟩ := map_eq_cons_inv hsk
  obtain ⟨p4, d2, rfl, hp4, hsk⟩ := map_eq_cons_inv hsk
  obtain ⟨p5, d2, rfl, hp5, hsk⟩ := map_eq_cons_inv hsk
  obtain ⟨p6, d2, rfl, hp6, hsk⟩ := map_eq_cons_inv hsk
  have hnil : d2 = [] := by
    cases d2 with
    | nil => rfl
    | cons q qs => simp at hsk
  subst hnil
  obtain ⟨k1, v1⟩ := p1
  obtain ⟨k2, v2⟩ := p2
  obtain ⟨k3, v3⟩ := p3
  obtain ⟨k4, v4⟩ := p4
  obtain ⟨k5, v5⟩ := p5
  obtain ⟨k6, v6⟩ := p6
  simp only [Prod.mk.injEq] at hp1 hp2 hp3 hp4 hp5 hp6
  obtain ⟨rfl, hv1⟩ := hp1
  obtain ⟨rfl, hv2⟩ := hp2
  obtain ⟨rfl, hv3⟩ := hp3
  obtain ⟨rfl, hv4⟩ := hp4
  obtain ⟨rfl, hv5⟩ := hp5
  obtain ⟨rfl, hv6⟩ := hp6
  obtain rfl := valSkeleton_bins_inv hv1
  obtain rfl := valSkeleton_bins_inv hv2
  obtain ⟨m3, rfl, hm3⟩ := valSkeleton_fmap_inv hv3
  obtain ⟨m4, rfl, hm4⟩ := valSkeleton_fmap_inv hv4
  obtain ⟨m5, rfl, hm5⟩ := valSkeleton_fmap_inv hv5
  obtain ⟨m6, rfl, hm6⟩ := valSkeleton_fmap_inv hv6
  simp only [get_osc_prob_maps, get_osc_probLT_dict, hok]
  simp [smoothFamilies, dictSkeleton, valSkeleton, List.map_map,
    Function.comp_def, hm3, hm4, hm5, hm6, bind, Except.bind, Functor.map,
    Except.map, pure, Except.pure]

/-- C1 witness: a concrete service with the identity hook (which
trivially preserves the table's skeleton). -/
theorem claim_C1_witness :
    (get_osc_prob_maps ⟨[1, 2, 3, 4], [-1, 0, 1]⟩ (fun d _ _ => .ok d)
      none none 2).map dictSkeleton
      = .ok [("ebins", .bins [1, 2, 3, 4]), ("czbins", .bins [-1, 0, 1]),
             ("nue_maps", .fmap ["nue", "numu", "nutau"]),
             ("numu_maps", .fmap ["nue", "numu", "nutau"]),
             ("nue_bar_maps", .fmap ["nue_bar", "numu_bar", "nutau_bar"]),
             ("numu_bar_maps", .fmap ["nue_bar", "numu_bar", "nutau_bar"])] :=
  claim_C1 ⟨[1, 2, 3, 4], [-1, 0, 1]⟩ (fun d _ _ => .ok d) none none 2
    (fun d _ _ => ⟨d, rfl, rfl⟩)

/-- C7: for `ebins = [1,2,3,4]`, `czbins = [-1,0,1]`, no explicit fine
edges and `oversample = 2`, the synthesized fine grid has exactly 6
energy bins and 4 cosine-zenith bins (7 and 5 edges), `subbinning`
detects the exact integer refinement with factors `(2, 2)`, and integer
rebinning aggregates each `2 × 2` block of fine cells into one coarse
cell. -/
theorem claim_C7 (m : Mat) (hrows : m.length = 6)
    (hhead : (m.headD []).length = 4) :
    check_oversampling none [1, 2, 3, 4] 2 = [1, 3/2, 2, 5/2, 3, 7/2, 4]
    ∧ check_oversampling none [-1, 0, 1] 2 = [-1, -1/2, 0, 1/2, 1]
    ∧ (check_oversampling none [1, 2, 3, 4] 2).length - 1 = 6
    ∧ (check_oversampling none [-1, 0, 1] 2).length - 1 = 4
    ∧ subbinning ([1, 2, 3, 4], [-1, 0, 1])
        (check_oversampling none [1, 2, 3, 4] 2,
         check_oversampling none [-1, 0, 1] 2) = some (2, 2)
    ∧ integer_rebin_map m (2, 2) = (List.range 3).map (fun i =>
        (List.range 2).map (fun j =>
          ((m.getD (2 * i) []).getD (2 * j) 0
            + (m.getD (2 * i) []).getD (2 * j + 1) 0
            + ((m.getD (2 * i + 1) []).getD (2 * j) 0
              + (m.getD (2 * i + 1) []).getD (2 * j + 1) 0)) / 4)) := by
  have he : check_oversampling none [1, 2, 3, 4] 2
      = [1, 3/2, 2, 5/2, 3, 7/2, 4] := by
    norm_num [check_oversampling, is_linear, diffs, allEqual, linspace,
      List.range_succ]
  have hcz : check_oversampling none [-1, 0, 1] 2
      = [-1, -1/2, 0, 1/2, 1] := by
    norm_num [check_oversampling, is_linear, diffs, allEqual, linspace,
      List.range_succ]
  refine ⟨he, hcz, by rw [he]; rfl, by rw [hcz]; rfl, ?_, ?_⟩
  · rw [he, hcz]
    norm_num [subbinning, is_coarser_binning, List.range_succ]
  · simp only [integer_rebin_map, hrows, hhead]
    norm_num [List.range_succ]

/-- C7 witness: the exact-rebin branch is selected for the spec's
example grids. -/
theorem claim_C7_witness :
    subbinning ([1, 2, 3, 4], [-1, 0, 1])
        (check_oversampling none [1, 2, 3, 4] 2,
         check_oversampling none [-1, 0, 1] 2) = some (2, 2) :=
  (claim_C7 (zeros 6 4) (by norm_num [zeros])
    (by simp [zeros, List.replicate_succ])).2.2.2.2.1

end Claims

